import Mathlib

/-!
Verification of the `simple-hash` crate (src/src/lib.rs and
src/simple-hash-macro/src/lib.rs), shallowly embedded in Lean.

Modelling conventions:
- Machine bytes are `Nat` values below 256; a byte stream is a `List Nat`.
- The hasher accumulator (the `Hasher` trait state) is modelled by the
  list of all bytes absorbed so far: the sha2 crate streaming `update`
  concatenates chunks, so `Hasher.update` is list append.
- Unsigned machine integers are `Nat` with an upper-bound invariant
  stated where needed; signed ones are `Int` with range invariants, and
  their byte image is taken modulo `2 ^ bits` (two.s-complement).
- Each Rust `impl Hashable for T { fn update ... }` becomes a Lean
  function `T_update : T → HAcc → HAcc` in state-passing style, mirroring
  the body of the impl.
- The SHA-256 compression pipeline (the `sha2` dependency behind
  `impl Hasher for Sha256`) is implemented from the FIPS 180-4 standard
  over `Nat` arithmetic, so digests can be evaluated by the kernel.
-/

/-- Accumulator state of a hasher: the bytes absorbed so far. -/
abbrev HAcc := List Nat

/-- Hasher.update for Sha256: `Digest::update(self, data)` absorbs the chunk. -/
def Hasher.update (h : HAcc) (data : List Nat) : HAcc := h ++ data

/-- Little-endian byte image of `x` in `w` bytes, as written by the
byteorder crate functions `write_u8`, `write_u16::<LittleEndian>`, etc. -/
def leBytes : Nat → Nat → List Nat
  | 0, _ => []
  | w + 1, x => x % 256 :: leBytes w (x / 256)

/-- Value of a little-endian byte list (first byte least significant). -/
def ofLE : List Nat → Nat
  | [] => 0
  | b :: bs => b + 256 * ofLE bs

/-- Big-endian byte image of `x` in `w` bytes (used inside SHA-256). -/
def beBytes (w x : Nat) : List Nat := (leBytes w x).reverse

/-- impl Hashable for u8: write_u8 into a 1-byte buffer, then absorb it. -/
def u8_update (x : Nat) (h : HAcc) : HAcc := Hasher.update h (leBytes 1 x)

/-- impl Hashable for bool: `*self as u8` (false→0, true→1) then write_u8. -/
def bool_update (b : Bool) (h : HAcc) : HAcc :=
  Hasher.update h (leBytes 1 (if b then 1 else 0))

/-- impl Hashable for i8: write_i8, i.e. the two.s-complement byte. -/
def i8_update (x : Int) (h : HAcc) : HAcc :=
  Hasher.update h (leBytes 1 ((x % 2 ^ 8).toNat))

/-- impl_hashable_for!(u16): write_u16::<LittleEndian> into a 2-byte buffer. -/
def u16_update (x : Nat) (h : HAcc) : HAcc := Hasher.update h (leBytes 2 x)

/-- impl_hashable_for!(i16): write_i16::<LittleEndian>, two.s-complement. -/
def i16_update (x : Int) (h : HAcc) : HAcc :=
  Hasher.update h (leBytes 2 ((x % 2 ^ 16).toNat))

/-- impl_hashable_for!(u32): write_u32::<LittleEndian> into a 4-byte buffer. -/
def u32_update (x : Nat) (h : HAcc) : HAcc := Hasher.update h (leBytes 4 x)

/-- impl_hashable_for!(i32): write_i32::<LittleEndian>, two.s-complement. -/
def i32_update (x : Int) (h : HAcc) : HAcc :=
  Hasher.update h (leBytes 4 ((x % 2 ^ 32).toNat))

/-- impl_hashable_for!(u64): write_u64::<LittleEndian> into an 8-byte buffer. -/
def u64_update (x : Nat) (h : HAcc) : HAcc := Hasher.update h (leBytes 8 x)

/-- impl_hashable_for!(i64): write_i64::<LittleEndian>, two.s-complement. -/
def i64_update (x : Int) (h : HAcc) : HAcc :=
  Hasher.update h (leBytes 8 ((x % 2 ^ 64).toNat))

/-- impl Hashable for Vec of T: `for t in self { t.update(h); }`. -/
def vec_update (upd : α → HAcc → HAcc) (l : List α) (h : HAcc) : HAcc :=
  l.foldl (fun h t => upd t h) h

/-- UTF-8 byte image of one character (the standard encoding used by
Rust `str::as_bytes`). -/
def utf8EncodeChar (c : Char) : List Nat :=
  let n := c.toNat
  if n < 0x80 then [n]
  else if n < 0x800 then
    [0xC0 ||| (n >>> 6), 0x80 ||| (n &&& 0x3F)]
  else if n < 0x10000 then
    [0xE0 ||| (n >>> 12), 0x80 ||| ((n >>> 6) &&& 0x3F), 0x80 ||| (n &&& 0x3F)]
  else
    [0xF0 ||| (n >>> 18), 0x80 ||| ((n >>> 12) &&& 0x3F),
     0x80 ||| ((n >>> 6) &&& 0x3F), 0x80 ||| (n &&& 0x3F)]

/-- UTF-8 byte sequence of a text value (`str::as_bytes`); text is
modelled as its list of characters. -/
def utf8Bytes (s : List Char) : List Nat := s.flatMap utf8EncodeChar

/-- impl Hashable for String: `for t in self.as_bytes() { t.update(h); }`,
each byte hashed through the u8 rule. -/
def string_update (s : List Char) (h : HAcc) : HAcc :=
  (utf8Bytes s).foldl (fun h t => u8_update t h) h

/-! SHA-256 (FIPS 180-4), over `Nat` with explicit reduction mod 2^32. -/

/-- Truncation to a 32-bit word. -/
def w32 (x : Nat) : Nat := x % 4294967296

/-- Right rotation of a 32-bit word by `n` places. -/
def rotr (n x : Nat) : Nat := w32 ((x >>> n) ||| (x <<< (32 - n)))

/-- The 64 SHA-256 round constants (FIPS 180-4 section 4.2.2, here in
decimal). -/
def sha256K : List Nat :=
  [1116352408, 1899447441, 3049323471, 3921009573,
   961987163, 1508970993, 2453635748, 2870763221,
   3624381080, 310598401, 607225278, 1426881987,
   1925078388, 2162078206, 2614888103, 3248222580,
   3835390401, 4022224774, 264347078, 604807628,
   770255983, 1249150122, 1555081692, 1996064986,
   2554220882, 2821834349, 2952996808, 3210313671,
   3336571891, 3584528711, 113926993, 338241895,
   666307205, 773529912, 1294757372, 1396182291,
   1695183700, 1986661051, 2177026350, 2456956037,
   2730485921, 2820302411, 3259730800, 3345764771,
   3516065817, 3600352804, 4094571909, 275423344,
   430227734, 506948616, 659060556, 883997877,
   958139571, 1322822218, 1537002063, 1747873779,
   1955562222, 2024104815, 2227730452, 2361852424,
   2428436474, 2756734187, 3204031479, 3329325298]

/-- The SHA-256 initial hash value (FIPS 180-4 section 5.3.3, in
decimal). -/
def sha256H0 : List Nat :=
  [1779033703, 3144134277, 1013904242, 2773480762,
   1359893119, 2600822924, 528734635, 1541459225]

/-- Group a byte list into big-endian 32-bit words, four bytes at a time. -/
def toWordsBE : List Nat → List Nat
  | a :: b :: c :: d :: rest => (((a * 256 + b) * 256 + c) * 256 + d) :: toWordsBE rest
  | _ => []

/-- Message-schedule extension: from the 16 block words to 64 words.
The working list keeps the newest word at the head. -/
def schedule (ws : List Nat) : List Nat :=
  let ext := (List.range 48).foldl (fun acc _ =>
    let w15 := acc.getD 14 0
    let w2 := acc.getD 1 0
    let s0 := w32 ((rotr 7 w15) ^^^ (rotr 18 w15) ^^^ (w15 >>> 3))
    let s1 := w32 ((rotr 17 w2) ^^^ (rotr 19 w2) ^^^ (w2 >>> 10))
    w32 (s1 + acc.getD 6 0 + s0 + acc.getD 15 0) :: acc) ws.reverse
  ext.reverse

/-- One SHA-256 compression round on the eight-word working state;
`kw` is the round constant plus the schedule word, mod 2^32. -/
def sha256Round (st : List Nat) (kw : Nat) : List Nat :=
  match st with
  | [a, b, c, d, e, f, g, hh] =>
    let S1 := w32 ((rotr 6 e) ^^^ (rotr 11 e) ^^^ (rotr 25 e))
    let ch := w32 ((e &&& f) ^^^ ((e ^^^ 0xFFFFFFFF) &&& g))
    let t1 := w32 (hh + S1 + ch + kw)
    let S0 := w32 ((rotr 2 a) ^^^ (rotr 13 a) ^^^ (rotr 22 a))
    let maj := w32 ((a &&& b) ^^^ (a &&& c) ^^^ (b &&& c))
    let t2 := w32 (S0 + maj)
    [w32 (t1 + t2), a, b, c, w32 (d + t1), e, f, g]
  | _ => st

/-- Compress one 64-byte block into the running eight-word hash state. -/
def sha256Compress (hs : List Nat) (block : List Nat) : List Nat :=
  let ws := schedule (toWordsBE block)
  let fin := (ws.zip sha256K).foldl (fun st p => sha256Round st (w32 (p.1 + p.2))) hs
  (hs.zip fin).map (fun p => w32 (p.1 + p.2))

/-- SHA-256 padding: a 0x80 byte, zeros to 56 mod 64, then the bit
length in 8 big-endian bytes. -/
def sha256Pad (msg : List Nat) : List Nat :=
  let len := msg.length
  msg ++ 0x80 :: List.replicate ((119 - len % 64) % 64) 0 ++ beBytes 8 (8 * len)

/-- Absorb one byte of the padded message, compressing each full
64-byte block; state is (hash words, pending block bytes). -/
def sha256Absorb (st : List Nat × List Nat) (b : Nat) : List Nat × List Nat :=
  let buf := st.2 ++ [b]
  if buf.length = 64 then (sha256Compress st.1 buf, []) else (st.1, buf)

/-- SHA-256 of a byte stream: pad, compress blockwise, serialize the
eight state words big-endian (Sha256::finish copies the 32 bytes out). -/
def sha256hash (msg : List Nat) : List Nat :=
  (((sha256Pad msg).foldl sha256Absorb (sha256H0, [])).1).flatMap (beBytes 4)

/-- Hasher::digest for Sha256: fresh state (`Sha256::new()`),
run the value.s update, then finish. An encodable value is represented
by its update function `HAcc → HAcc`; the fresh accumulator is `[]`. -/
def sha256_digest (upd : HAcc → HAcc) : List Nat := sha256hash (upd [])

/-- The record type of the crate doctest and test_derive:
struct Foo { a: u8, b: u16, c: Vec of u32 }. -/
structure Foo where
  a : Nat
  b : Nat
  c : List Nat

/-- The Hashable impl generated by derive(Hashable) for Foo:
`self.a.update(h); self.b.update(h); self.c.update(h);`. -/
def Foo.update (s : Foo) (h : HAcc) : HAcc :=
  vec_update u32_update s.c (u16_update s.b (u8_update s.a h))

/-! Model of the derive macro (src/simple-hash-macro/src/lib.rs): the
input shape mirrors syn.s DeriveInput data, and the output is the list
of field accessors the macro emits, in emission order. A syn parse of a
Rust type yields Named fields for `struct S { .. }` (possibly empty),
Unnamed fields for `struct S(..)` (possibly empty), Unit for
`struct S;`, and Enum or Union for the other declarations. -/

/-- Field list shapes of a struct, as classified by syn::Fields. -/
inductive StructFields where
  | named : List String → StructFields
  | unnamed : Nat → StructFields
  | unit : StructFields
deriving DecidableEq

/-- Shapes of a derive input, as classified by syn::Data; enums carry
their variant names. -/
inductive DeriveData where
  | struct : StructFields → DeriveData
  | enum : List String → DeriveData
  | union : DeriveData
deriving DecidableEq

/-- hashable_derive: matches on the input data; named and unnamed
structs yield their fields in declaration order (an unnamed field gets
its zero-based index as a synthetic name); everything else panics
(`Expected a struct`), i.e. the macro, and so compilation, fails. The
result is the ordered list of field names `f` for which the macro emits
`self.f.update(h);`. -/
def hashable_derive : DeriveData → Option (List String)
  | .struct (.named fs) => some fs
  | .struct (.unnamed n) => some ((List.range n).map toString)
  | _ => none

/-- The update body generated by the macro: the emitted statements
`self.f.update(h);`, one per field, run in emission order; each field
contributes its own update function. -/
def derive_update (fieldUpds : List (HAcc → HAcc)) (h : HAcc) : HAcc :=
  fieldUpds.foldl (fun h u => u h) h

/-! Fallible model of the buffer writes inside the primitive updates:
each impl does `let mut buf = [0u8; N]; let mut b = &mut buf[..];
b.write_xx(..).unwrap(); h.update(buf.as_slice());`. The io::Write impl
for a mutable byte slice errors iff the data does not fit. -/

/-- Write `data` at the start of slice `buf`: succeeds iff it fits,
returning the written bytes followed by the untouched tail. -/
def sliceWrite (buf : List Nat) (data : List Nat) : Option (List Nat) :=
  if data.length ≤ buf.length then some (data ++ buf.drop data.length) else none

/-- One primitive update with its internal write modelled fallibly: a
zeroed `w`-byte buffer receives the byte image `bytes`, and on success
the buffer is absorbed. `none` models a panic of the unwrap. -/
def write_checked (w : Nat) (bytes : List Nat) (h : HAcc) : Option HAcc :=
  (sliceWrite (List.replicate w 0) bytes).map (fun buf => Hasher.update h buf)

/-- u8 update with the fallible write model. -/
def u8_update_checked (x : Nat) (h : HAcc) : Option HAcc :=
  write_checked 1 (leBytes 1 x) h

/-- bool update with the fallible write model. -/
def bool_update_checked (b : Bool) (h : HAcc) : Option HAcc :=
  write_checked 1 (leBytes 1 (if b then 1 else 0)) h

/-- i8 update with the fallible write model. -/
def i8_update_checked (x : Int) (h : HAcc) : Option HAcc :=
  write_checked 1 (leBytes 1 ((x % 2 ^ 8).toNat)) h

/-- u16 update with the fallible write model. -/
def u16_update_checked (x : Nat) (h : HAcc) : Option HAcc :=
  write_checked 2 (leBytes 2 x) h

/-- i16 update with the fallible write model. -/
def i16_update_checked (x : Int) (h : HAcc) : Option HAcc :=
  write_checked 2 (leBytes 2 ((x % 2 ^ 16).toNat)) h

/-- u32 update with the fallible write model. -/
def u32_update_checked (x : Nat) (h : HAcc) : Option HAcc :=
  write_checked 4 (leBytes 4 x) h

/-- i32 update with the fallible write model. -/
def i32_update_checked (x : Int) (h : HAcc) : Option HAcc :=
  write_checked 4 (leBytes 4 ((x % 2 ^ 32).toNat)) h

/-- u64 update with the fallible write model. -/
def u64_update_checked (x : Nat) (h : HAcc) : Option HAcc :=
  write_checked 8 (leBytes 8 x) h

/-- i64 update with the fallible write model. -/
def i64_update_checked (x : Int) (h : HAcc) : Option HAcc :=
  write_checked 8 (leBytes 8 ((x % 2 ^ 64).toNat)) h

/-! Spec-side characterizations (from the words of the specification,
for comparison with the code-derived encoders): what it means for a
byte list to be the `w`-byte little-endian image of an unsigned value,
or the `w`-byte little-endian two.s-complement image of a signed one. -/

/-- Spec-side: `bs` is the `w`-byte little-endian representation of the
unsigned value `x`: exactly `w` bytes, each below 256, whose
little-endian value is `x`. -/
def LEUnsignedSpec (w x : Nat) (bs : List Nat) : Prop :=
  bs.length = w ∧ (∀ b ∈ bs, b < 256) ∧ ofLE bs = x

/-- Spec-side: `bs` is the `w`-byte little-endian two.s-complement
representation of the signed value `x`: exactly `w` bytes, each below
256, whose little-endian value is `x` reduced modulo `2 ^ (8 * w)`. -/
def LETwosSpec (w : Nat) (x : Int) (bs : List Nat) : Prop :=
  bs.length = w ∧ (∀ b ∈ bs, b < 256) ∧ (ofLE bs : Int) = x % 2 ^ (8 * w)

/-! Helper lemmas. -/

/-- leBytes produces exactly `w` bytes. -/
theorem leBytes_length (w : Nat) : ∀ x, (leBytes w x).length = w := by
  induction w with
  | zero => intro x; rfl
  | succ w ih => intro x; simp [leBytes, ih]

/-- Every entry of leBytes is a byte. -/
theorem leBytes_lt_256 (w : Nat) : ∀ x, ∀ b ∈ leBytes w x, b < 256 := by
  induction w with
  | zero => intro x b hb; simp [leBytes] at hb
  | succ w ih =>
    intro x b hb
    simp only [leBytes, List.mem_cons] at hb
    rcases hb with hb | hb
    · subst hb; exact Nat.mod_lt _ (by norm_num)
    · exact ih _ b hb

/-- The little-endian value of leBytes recovers the input modulo 256 ^ w. -/
theorem ofLE_leBytes (w : Nat) : ∀ x, ofLE (leBytes w x) = x % 256 ^ w := by
  induction w with
  | zero => intro x; simp [leBytes, ofLE, Nat.mod_one]
  | succ w ih =>
    intro x
    simp only [leBytes, ofLE, ih]
    rw [pow_succ, mul_comm (256 ^ w) 256, Nat.mod_mul]

/-- leBytes meets the spec-side unsigned characterization for in-range
inputs. -/
theorem leBytes_unsigned_spec (w x : Nat) (hx : x < 2 ^ (8 * w)) :
    LEUnsignedSpec w x (leBytes w x) := by
  refine ⟨leBytes_length w x, leBytes_lt_256 w x, ?_⟩
  rw [ofLE_leBytes]
  apply Nat.mod_eq_of_lt
  calc x < 2 ^ (8 * w) := hx
    _ = 256 ^ w := by rw [pow_mul]; norm_num

/-- leBytes of the reduced integer meets the spec-side two.s-complement
characterization, for every integer. -/
theorem leBytes_twos_spec (w : Nat) (x : Int) :
    LETwosSpec w x (leBytes w ((x % 2 ^ (8 * w)).toNat)) := by
  have h2 : (0 : Int) < (2 : Int) ^ (8 * w) := by positivity
  have hnn : 0 ≤ x % (2 : Int) ^ (8 * w) := Int.emod_nonneg x (ne_of_gt h2)
  have hlt : x % (2 : Int) ^ (8 * w) < (2 : Int) ^ (8 * w) := Int.emod_lt_of_pos x h2
  have hc : ((2 ^ (8 * w) : Nat) : Int) = (2 : Int) ^ (8 * w) := by push_cast; ring
  have htn : (x % 2 ^ (8 * w)).toNat < 2 ^ (8 * w) := by omega
  have h256 : (256 : Nat) ^ w = 2 ^ (8 * w) := by rw [pow_mul]; norm_num
  refine ⟨leBytes_length w _, leBytes_lt_256 w _, ?_⟩
  rw [ofLE_leBytes, h256, Nat.mod_eq_of_lt htn]
  omega

/-- Every character value is a Unicode scalar value. -/
theorem char_toNat_lt (c : Char) : c.toNat < 1114112 := by
  have h := c.valid
  simp only [Char.toNat]
  rcases h with h | h
  · omega
  · omega

/-- UTF-8 encoding emits only bytes. -/
theorem utf8EncodeChar_lt_256 (c : Char) : ∀ b ∈ utf8EncodeChar c, b < 256 := by
  intro b hb
  have hc := char_toNat_lt c
  have hor : ∀ y z : Nat, y < 256 → z < 256 → y ||| z < 256 := by
    intro y z hy hz
    have h8 : (256 : Nat) = 2 ^ 8 := by norm_num
    rw [h8] at hy hz ⊢
    exact Nat.or_lt_two_pow hy hz
  have hand : ∀ y : Nat, y &&& 0x3F < 256 := by
    intro y
    have h := Nat.and_le_right (n := y) (m := 0x3F)
    omega
  have hshr : ∀ y k m : Nat, y < m * 2 ^ k → y >>> k < m := by
    intro y k m hy
    rw [Nat.shiftRight_eq_div_pow]
    exact Nat.div_lt_of_lt_mul (by rw [mul_comm] at hy; exact hy)
  simp only [utf8EncodeChar] at hb
  split at hb
  case isTrue hn =>
    simp only [List.mem_singleton] at hb; omega
  case isFalse hn1 =>
    split at hb
    case isTrue hn =>
      simp only [List.mem_cons, List.not_mem_nil, or_false] at hb
      rcases hb with hb | hb
      · subst hb
        exact hor _ _ (by norm_num) (hshr _ 6 256 (by omega))
      · subst hb
        exact hor _ _ (by norm_num) (hand _)
    case isFalse hn2 =>
      split at hb
      case isTrue hn =>
        simp only [List.mem_cons, List.not_mem_nil, or_false] at hb
        rcases hb with hb | hb | hb
        · subst hb
          exact hor _ _ (by norm_num) (hshr _ 12 256 (by omega))
        · subst hb
          exact hor _ _ (by norm_num) (hand _)
        · subst hb
          exact hor _ _ (by norm_num) (hand _)
      case isFalse hn3 =>
        simp only [List.mem_cons, List.not_mem_nil, or_false] at hb
        rcases hb with hb | hb | hb | hb
        · subst hb
          exact hor _ _ (by norm_num) (hshr _ 18 256 (by omega))
        · subst hb
          exact hor _ _ (by norm_num) (hand _)
        · subst hb
          exact hor _ _ (by norm_num) (hand _)
        · subst hb
          exact hor _ _ (by norm_num) (hand _)

/-- Every byte of a UTF-8 byte stream is below 256. -/
theorem utf8Bytes_lt_256 (s : List Char) : ∀ b ∈ utf8Bytes s, b < 256 := by
  intro b hb
  simp only [utf8Bytes, List.mem_flatMap] at hb
  obtain ⟨c, _, hbc⟩ := hb
  exact utf8EncodeChar_lt_256 c b hbc

/-- Updating a sequence appends the concatenation of the element byte
images, provided each element update appends its image. -/
theorem vec_update_flat {α : Type} (upd : α → HAcc → HAcc) (enc : α → List Nat)
    (happ : ∀ t h, upd t h = h ++ enc t) :
    ∀ (l : List α) (h : HAcc), vec_update upd l h = h ++ l.flatMap enc := by
  intro l
  induction l with
  | nil => intro h; simp [vec_update]
  | cons t ts ih =>
    intro h
    have hstep : vec_update upd (t :: ts) h = vec_update upd ts (upd t h) := rfl
    rw [hstep, ih, happ]
    simp

/-- Mapping single-byte images over a byte list is the identity. -/
theorem flatMap_leBytes_one (bs : List Nat) (hbs : ∀ b ∈ bs, b < 256) :
    bs.flatMap (fun b => leBytes 1 b) = bs := by
  induction bs with
  | nil => rfl
  | cons b t ih =>
    simp only [List.flatMap_cons]
    rw [ih (fun x hx => hbs x (List.mem_cons_of_mem b hx))]
    have hb : b % 256 = b := Nat.mod_eq_of_lt (hbs b (List.mem_cons_self b t))
    simp [leBytes, hb]

/-- A checked write of exactly `w` bytes into the `w`-byte buffer
always succeeds and absorbs exactly those bytes. -/
theorem write_checked_eq (w : Nat) (bytes : List Nat) (h : HAcc)
    (hlen : bytes.length = w) :
    write_checked w bytes h = some (h ++ bytes) := by
  simp [write_checked, sliceWrite, hlen, Hasher.update]

/-- The generated update of a record appends the concatenation of the
per-field byte images, whenever each field update appends its image. -/
theorem derive_update_flat :
    ∀ (fieldUpds : List (HAcc → HAcc)) (encs : List (List Nat)),
      List.Forall₂ (fun u bs => ∀ h, u h = h ++ bs) fieldUpds encs →
      ∀ h : HAcc, derive_update fieldUpds h = h ++ encs.flatten := by
  intro fieldUpds
  induction fieldUpds with
  | nil =>
    intro encs hfe h
    cases hfe
    simp [derive_update]
  | cons u us ih =>
    intro encs hfe h
    cases hfe with
    | cons hab htl =>
      have h1 : derive_update (u :: us) h = derive_update us (u h) := rfl
      rw [h1, ih _ htl, hab]
      simp

set_option maxRecDepth 40000

/-! The claim theorems. -/

/-- C1: digesting Foo { a: 8, b: 99, c: vec![0,1,2,3] } with the bundled
256-bit algorithm (Sha256) returns exactly the 32-byte value
929863ce588951eae0cc88755216f96951d431e7d15adbb836d8f1960bb65a9d. -/
theorem foo_digest_golden :
    sha256_digest (Foo.update ⟨8, 99, [0, 1, 2, 3]⟩) =
      [0x92, 0x98, 0x63, 0xce, 0x58, 0x89, 0x51, 0xea,
       0xe0, 0xcc, 0x88, 0x75, 0x52, 0x16, 0xf9, 0x69,
       0x51, 0xd4, 0x31, 0xe7, 0xd1, 0x5a, 0xdb, 0xb8,
       0x36, 0xd8, 0xf1, 0x96, 0x0b, 0xb6, 0x5a, 0x9d] := by
  decide

/-- C2: every 16-, 32- or 64-bit update appends exactly 2/4/8 bytes,
the little-endian representation of the value, two.s-complement for the
signed types; nothing else is appended. -/
theorem fixed_width_updates_le :
    (∀ (x : Nat) (h : HAcc), x < 2 ^ 16 →
      u16_update x h = h ++ leBytes 2 x ∧ LEUnsignedSpec 2 x (leBytes 2 x)) ∧
    (∀ (x : Nat) (h : HAcc), x < 2 ^ 32 →
      u32_update x h = h ++ leBytes 4 x ∧ LEUnsignedSpec 4 x (leBytes 4 x)) ∧
    (∀ (x : Nat) (h : HAcc), x < 2 ^ 64 →
      u64_update x h = h ++ leBytes 8 x ∧ LEUnsignedSpec 8 x (leBytes 8 x)) ∧
    (∀ (x : Int) (h : HAcc),
      i16_update x h = h ++ leBytes 2 ((x % 2 ^ 16).toNat) ∧
      LETwosSpec 2 x (leBytes 2 ((x % 2 ^ 16).toNat))) ∧
    (∀ (x : Int) (h : HAcc),
      i32_update x h = h ++ leBytes 4 ((x % 2 ^ 32).toNat) ∧
      LETwosSpec 4 x (leBytes 4 ((x % 2 ^ 32).toNat))) ∧
    (∀ (x : Int) (h : HAcc),
      i64_update x h = h ++ leBytes 8 ((x % 2 ^ 64).toNat) ∧
      LETwosSpec 8 x (leBytes 8 ((x % 2 ^ 64).toNat))) := by
  refine ⟨fun x h hx => ⟨rfl, leBytes_unsigned_spec 2 x hx⟩,
    fun x h hx => ⟨rfl, leBytes_unsigned_spec 4 x hx⟩,
    fun x h hx => ⟨rfl, leBytes_unsigned_spec 8 x hx⟩,
    fun x h => ⟨rfl, leBytes_twos_spec 2 x⟩,
    fun x h => ⟨rfl, leBytes_twos_spec 4 x⟩,
    fun x h => ⟨rfl, leBytes_twos_spec 8 x⟩⟩

/-- Witness for C2 at boundary inputs: unsigned max and zero, signed
min and minus one. -/
theorem fixed_width_updates_le_witness :
    (u16_update 65535 [] = [] ++ leBytes 2 65535 ∧
      LEUnsignedSpec 2 65535 (leBytes 2 65535)) ∧
    (u32_update 0 [] = [] ++ leBytes 4 0 ∧ LEUnsignedSpec 4 0 (leBytes 4 0)) ∧
    (u64_update 18446744073709551615 [] = [] ++ leBytes 8 18446744073709551615 ∧
      LEUnsignedSpec 8 18446744073709551615 (leBytes 8 18446744073709551615)) ∧
    (i16_update (-32768) [] = [] ++ leBytes 2 (((-32768 : Int) % 2 ^ 16).toNat) ∧
      LETwosSpec 2 (-32768) (leBytes 2 (((-32768 : Int) % 2 ^ 16).toNat))) ∧
    (i32_update (-1) [] = [] ++ leBytes 4 (((-1 : Int) % 2 ^ 32).toNat) ∧
      LETwosSpec 4 (-1) (leBytes 4 (((-1 : Int) % 2 ^ 32).toNat))) ∧
    (i64_update (-9223372036854775808) [] =
        [] ++ leBytes 8 (((-9223372036854775808 : Int) % 2 ^ 64).toNat) ∧
      LETwosSpec 8 (-9223372036854775808)
        (leBytes 8 (((-9223372036854775808 : Int) % 2 ^ 64).toNat))) :=
  ⟨fixed_width_updates_le.1 65535 [] (by decide),
   fixed_width_updates_le.2.1 0 [] (by decide),
   fixed_width_updates_le.2.2.1 18446744073709551615 [] (by decide),
   fixed_width_updates_le.2.2.2.1 (-32768) [],
   fixed_width_updates_le.2.2.2.2.1 (-1) [],
   fixed_width_updates_le.2.2.2.2.2 (-9223372036854775808) []⟩

/-- C3: updating with a Vec appends exactly the bytes of the first
element followed by the bytes of the second, and in general the
concatenation of all element encodings in order, with no length prefix,
separator or other framing, whenever each element update appends its
own byte image. -/
theorem vec_update_concat_law {α : Type} (upd : α → HAcc → HAcc)
    (enc : α → List Nat) (happ : ∀ t h, upd t h = h ++ enc t) :
    (∀ (a b : α) (h : HAcc), vec_update upd [a, b] h = h ++ (enc a ++ enc b)) ∧
    (∀ (l : List α) (h : HAcc), vec_update upd l h = h ++ l.flatMap enc) := by
  refine ⟨?_, vec_update_flat upd enc happ⟩
  intro a b h
  rw [vec_update_flat upd enc happ]
  simp

/-- Witness for C3: a two-element u8 vector. -/
theorem vec_update_concat_law_witness :
    vec_update u8_update [3, 5] [] = [] ++ (leBytes 1 3 ++ leBytes 1 5) :=
  (vec_update_concat_law u8_update (fun t => leBytes 1 t) (fun _ _ => rfl)).1 3 5 []

/-- C4: the derive macro emits exactly one update per declared field, in
declaration order (a positional field is traversed by its zero-based
index, which is never encoded), and the generated routine appends the
concatenation of the field encodings with nothing between or around. -/
theorem derive_fields_in_order :
    (∀ fs : List String,
      hashable_derive (DeriveData.struct (StructFields.named fs)) = some fs) ∧
    (∀ n : Nat, hashable_derive (DeriveData.struct (StructFields.unnamed n)) =
      some ((List.range n).map toString)) ∧
    (∀ (fieldUpds : List (HAcc → HAcc)) (encs : List (List Nat)),
      List.Forall₂ (fun u bs => ∀ h, u h = h ++ bs) fieldUpds encs →
      ∀ h : HAcc, derive_update fieldUpds h = h ++ encs.flatten) :=
  ⟨fun _ => rfl, fun _ => rfl, derive_update_flat⟩

/-- Witness for C4: the three fields of Foo { a: 8, b: 99, c: [0,1,2,3] }. -/
theorem derive_fields_in_order_witness :
    derive_update
        [u8_update 8, u16_update 99, vec_update u32_update [0, 1, 2, 3]] [] =
      [] ++ [[8], [99, 0],
        [0, 0, 0, 0, 1, 0, 0, 0, 2, 0, 0, 0, 3, 0, 0, 0]].flatten :=
  derive_fields_in_order.2.2 _ _
    (List.Forall₂.cons (fun _ => rfl)
      (List.Forall₂.cons (fun _ => rfl)
        (List.Forall₂.cons
          (fun h => by simp [vec_update, u32_update, Hasher.update, leBytes])
          List.Forall₂.nil))) []

/-- C5: updating with a String appends exactly the raw UTF-8 bytes of
the text, each through the one-byte u8 rule, in text order, with no
length prefix and no terminator. -/
theorem string_update_appends_utf8 :
    ∀ (s : List Char) (h : HAcc), string_update s h = h ++ utf8Bytes s := by
  intro s h
  have h1 : string_update s h = vec_update u8_update (utf8Bytes s) h := rfl
  rw [h1, vec_update_flat u8_update (fun b => leBytes 1 b) (fun _ _ => rfl),
    flatMap_leBytes_one _ (utf8Bytes_lt_256 s)]

/-- C6 counterexample: a named-field struct with an empty field list is
a type with no fields, yet the derive macro accepts it and generates an
empty update body; likewise an empty tuple struct. Only unit structs,
enums and unions hit the panic. -/
theorem fieldless_struct_accepted :
    hashable_derive (DeriveData.struct (StructFields.named [])) = some [] ∧
    hashable_derive (DeriveData.struct (StructFields.unnamed 0)) = some [] :=
  ⟨rfl, rfl⟩

/-- C6 amended: the derive macro fails at expansion (hence compile)
time on every enum, on unions and on unit structs, and accepts every
named-field or tuple struct, including ones with zero fields. -/
theorem derive_shape_rejection :
    (∀ vs : List String, hashable_derive (DeriveData.enum vs) = none) ∧
    hashable_derive DeriveData.union = none ∧
    hashable_derive (DeriveData.struct StructFields.unit) = none ∧
    (∀ fs : List String,
      (hashable_derive (DeriveData.struct (StructFields.named fs))).isSome = true) ∧
    (∀ n : Nat,
      (hashable_derive (DeriveData.struct (StructFields.unnamed n))).isSome = true) :=
  ⟨fun _ => rfl, rfl, rfl, fun _ => rfl, fun _ => rfl⟩

/-- C7: the logically distinct text sequences ["ab", "c"] and
["a", "bc"] absorb identical byte streams, so their Sha256 digests
coincide: the encoding is not injective across element boundaries. -/
theorem sequence_boundary_ambiguity :
    ([['a', 'b'], ['c']] : List (List Char)) ≠ [['a'], ['b', 'c']] ∧
    vec_update string_update [['a', 'b'], ['c']] [] =
      vec_update string_update [['a'], ['b', 'c']] [] ∧
    sha256_digest (vec_update string_update [['a', 'b'], ['c']]) =
      sha256_digest (vec_update string_update [['a'], ['b', 'c']]) := by
  refine ⟨by decide, by decide, by decide⟩

/-- C8: encoding never fails at runtime: each primitive update, with its
internal buffer write modelled fallibly, always succeeds and produces
exactly the bytes of the total encoder; there is no error outcome. -/
theorem updates_never_fail :
    (∀ (x : Nat) (h : HAcc), u8_update_checked x h = some (u8_update x h)) ∧
    (∀ (b : Bool) (h : HAcc), bool_update_checked b h = some (bool_update b h)) ∧
    (∀ (x : Int) (h : HAcc), i8_update_checked x h = some (i8_update x h)) ∧
    (∀ (x : Nat) (h : HAcc), u16_update_checked x h = some (u16_update x h)) ∧
    (∀ (x : Int) (h : HAcc), i16_update_checked x h = some (i16_update x h)) ∧
    (∀ (x : Nat) (h : HAcc), u32_update_checked x h = some (u32_update x h)) ∧
    (∀ (x : Int) (h : HAcc), i32_update_checked x h = some (i32_update x h)) ∧
    (∀ (x : Nat) (h : HAcc), u64_update_checked x h = some (u64_update x h)) ∧
    (∀ (x : Int) (h : HAcc), i64_update_checked x h = some (i64_update x h)) := by
  refine ⟨?_, ?_, ?_, ?_, ?_, ?_, ?_, ?_, ?_⟩ <;>
    exact fun x h => write_checked_eq _ _ _ (leBytes_length _ _)

/-- C9: the digest is a function of the absorbed byte stream alone: two
computations on separate fresh accumulators that absorb identical byte
sequences return identical outputs. In this embedding the update run of
a value is a pure function, so the same value absorbs literally the
same bytes on every fresh accumulator, and repeated digests of one
value coincide. -/
theorem digest_deterministic (u u' : HAcc → HAcc) (hsame : u [] = u' []) :
    sha256_digest u = sha256_digest u' := by
  unfold sha256_digest
  rw [hsame]

/-- Witness for C9: two digest computations of the doctest Foo value. -/
theorem digest_deterministic_witness :
    sha256_digest (Foo.update ⟨8, 99, [0, 1, 2, 3]⟩) =
      sha256_digest (Foo.update ⟨8, 99, [0, 1, 2, 3]⟩) :=
  digest_deterministic _ _ rfl

/-- C10: no type information reaches the accumulator: a String update
absorbs exactly what the Vec-of-u8 update of its UTF-8 bytes absorbs,
and a bool update absorbs exactly what the u8 update of its cast
absorbs, so the respective Sha256 digests are equal. -/
theorem type_erased_encoding :
    (∀ (s : List Char) (h : HAcc),
      string_update s h = vec_update u8_update (utf8Bytes s) h) ∧
    (∀ s : List Char,
      sha256_digest (string_update s) =
        sha256_digest (vec_update u8_update (utf8Bytes s))) ∧
    (∀ (b : Bool) (h : HAcc),
      bool_update b h = u8_update (if b then 1 else 0) h) ∧
    (∀ b : Bool,
      sha256_digest (bool_update b) =
        sha256_digest (u8_update (if b then 1 else 0))) :=
  ⟨fun _ _ => rfl, fun _ => rfl, fun _ _ => rfl, fun _ => rfl⟩
